import Mathlib

/-!
Verification of the minimal-path ("livewire") engine of the Utilities
repository (itkMinimalPathImageFunction) and of the FEM landmark load
(itkFEMLoadLandmark).

The repository ships only the header of MinimalPathImageFunction; the
implementation file (itkMinimalPathImageFunction.hxx) is not part of the
source tree.  The single-source minimal-cost search, the direction-field
walk and the coordinate conversions are therefore modelled from the
specification; every definition taken from the specification carries a
doc comment starting with `Modelled from the spec:`.  The header-level
operations (SetAnchorSeed, Evaluate, EvaluateAtContinuousIndex) and
LoadLandmark::ScalePointAndForce are translated from the source.

Machine floating point (`float`/`double` in the source) is idealised as
a linearly ordered additive commutative monoid `α` of costs (so that the
search state stays executable; `ℝ` instantiates it), as `ℚ` for grid
geometry, and as `ℝ` for the edge-weight formula, which involves a
Euclidean norm.
-/

namespace MinPath

/-- A node: an N-D integer grid index (`IndexType` in the source). -/
abbrev Node (d : ℕ) := Fin d → ℤ

/-- The input grid geometry: per-axis extents, origin and physical spacing. -/
structure Grid (d : ℕ) where
  size : Fin d → ℕ
  origin : Fin d → ℚ
  spacing : Fin d → ℚ

variable {d : ℕ} {α : Type} [LinearOrderedAddCommMonoid α]

/-- Pointwise sum of a node and an offset. -/
def nodeAdd (x o : Node d) : Node d := fun i => x i + o i

/-- Pointwise negation of an offset. -/
def nodeNeg (o : Node d) : Node d := fun i => -(o i)

/-- The finite set of all in-bounds nodes of a grid. -/
def allNodes (g : Grid d) : Finset (Node d) :=
  (Fintype.piFinset (fun i : Fin d => Finset.range (g.size i))).image
    (fun f => fun i => ((f i : ℕ) : ℤ))

/-- Modelled from the spec: a node passes the mask test iff its mask value
equals the configured inside label, or no mask is set. -/
def traversable (mask : Option (Node d → ℤ)) (lab : ℤ) (n : Node d) : Bool :=
  match mask with
  | none => true
  | some m => decide (m n = lab)

/-- Modelled from the spec: an offset is legal for the connectivity policy iff
it is a nonzero offset of the unit hypercube, and additionally axis-aligned
(exactly one nonzero coordinate) when face-connectedness is requested. -/
def IsLegalOffset (faceOnly : Bool) (o : Node d) : Prop :=
  (∀ i, o i = -1 ∨ o i = 0 ∨ o i = 1) ∧ (¬ ∀ i, o i = 0) ∧
    (faceOnly = true → (∑ i, (o i).natAbs) = 1)

instance (faceOnly : Bool) (o : Node d) : Decidable (IsLegalOffset faceOnly o) := by
  unfold IsLegalOffset
  infer_instance

/-- All integer vectors of a given dimension with coordinates in {-1, 0, 1}. -/
def unitCubeOffsets : (n : ℕ) → List (Fin n → ℤ)
  | 0 => [fun i => i.elim0]
  | n + 1 =>
      (unitCubeOffsets n).flatMap
        (fun f => ([-1, 0, 1] : List ℤ).map (fun z => Fin.cons z f))

/-- Modelled from the spec: the list of neighbor offsets enumerated by the
connectivity policy (2·D axis-aligned unit offsets when face-connected,
all 3^D − 1 nonzero unit-hypercube offsets otherwise). -/
def connectivityOffsets (faceOnly : Bool) (d : ℕ) : List (Node d) :=
  (unitCubeOffsets d).filter (fun o => decide (IsLegalOffset faceOnly o))

/-- Working state of one direction-field build: the cumulative-cost map
(`none` is infinite), the per-node predecessor offset, the finalized set,
and the lazy-deletion priority queue. -/
structure BuildState (d : ℕ) (α : Type) where
  dist : Node d → Option α
  pred : Node d → Option (Node d)
  finalized : Finset (Node d)
  queue : List (α × Node d)

/-- Parameters of one direction-field build: grid, optional mask with its
inside label, the connectivity flag, the edge-weight function (the
neighbor-cost-derived weight of the spec, kept abstract so the search is
executable; the concrete formula is `specEdgeWeight` below), and the anchor. -/
structure SearchParams (d : ℕ) (α : Type) where
  grid : Grid d
  mask : Option (Node d → ℤ)
  insideLabel : ℤ
  faceOnly : Bool
  ew : Node d → Node d → α
  anchor : Node d

/-- Comparison of a candidate cost against a possibly-infinite current cost:
the candidate wins against infinity, and otherwise must be strictly smaller. -/
def distLT (cand : α) : Option α → Bool
  | none => true
  | some c => decide (cand < c)

/-- Modelled from the spec: relax the edge from the just-finalized node `u`
(cumulative cost `du`) along offset `o`: if the neighbor is in bounds and
passes the mask test and the candidate cost strictly improves, update its
cost, record the reverse offset as its predecessor direction, and push it. -/
def relaxOne (P : SearchParams d α) (u : Node d) (du : α) (s : BuildState d α)
    (o : Node d) : BuildState d α :=
  if nodeAdd u o ∈ allNodes P.grid ∧
      traversable P.mask P.insideLabel (nodeAdd u o) = true ∧
      distLT (du + P.ew o (nodeAdd u o)) (s.dist (nodeAdd u o)) = true then
    { s with
      dist := fun x => if x = nodeAdd u o
        then some (du + P.ew o (nodeAdd u o)) else s.dist x,
      pred := fun x => if x = nodeAdd u o then some (nodeNeg o) else s.pred x,
      queue := (du + P.ew o (nodeAdd u o), nodeAdd u o) :: s.queue }
  else s

/-- Modelled from the spec: process one popped queue entry `e` (with the rest
of the queue `rest`): discard it if its node is already finalized, otherwise
finalize the node and relax all its connectivity neighbors. -/
def buildStep (P : SearchParams d α) (s : BuildState d α) (e : α × Node d)
    (rest : List (α × Node d)) : BuildState d α :=
  if e.2 ∈ s.finalized then { s with queue := rest }
  else
    (connectivityOffsets P.faceOnly d).foldl
      (relaxOne P e.2 ((s.dist e.2).getD e.1))
      { s with queue := rest, finalized := insert e.2 s.finalized }

/-- First entry with minimal key among `x :: q` (the priority-queue pop;
tie order among equal keys is an implementation detail). -/
def minEntry (x : α × Node d) : List (α × Node d) → α × Node d
  | [] => x
  | y :: ys => if y.1 < x.1 then minEntry y ys else minEntry x ys

/-- Modelled from the spec: the main search loop; repeatedly pop a minimal
entry and process it until the queue empties.  The fuel is a modelling
device; `buildFuel` is proved sufficient for the loop to drain the queue. -/
def buildLoop (P : SearchParams d α) : ℕ → BuildState d α → BuildState d α
  | 0, s => s
  | fuel + 1, s =>
    match s.queue with
    | [] => s
    | x :: xs =>
        buildLoop P fuel
          (buildStep P s (minEntry x xs) ((x :: xs).erase (minEntry x xs)))

/-- Initial search state: cumulative cost zero at the anchor and infinite
elsewhere, no predecessors, nothing finalized, the anchor seeded at cost 0. -/
def initialState (P : SearchParams d α) : BuildState d α :=
  { dist := fun n => if n = P.anchor then some 0 else none,
    pred := fun _ => none,
    finalized := ∅,
    queue := [(0, P.anchor)] }

/-- Fuel sufficient for the search loop to drain its queue (proved below). -/
def buildFuel (P : SearchParams d α) : ℕ :=
  (insert P.anchor (allNodes P.grid)).card *
    (connectivityOffsets P.faceOnly d).length + 1

/-- Modelled from the spec: the full direction-field build
(`GeneratePathDirectionImage` in the source; its implementation file is not
part of the repository), a single-source minimal-cost search from the anchor. -/
def GeneratePathDirectionImage (P : SearchParams d α) : BuildState d α :=
  buildLoop P (buildFuel P) (initialState P)

/-- Failure conditions of a query, after the spec's error taxonomy. -/
inductive EvalError where
  | noInput : EvalError
  | outOfBounds : EvalError
  | unreachableQuery : EvalError
  | inconsistentDirectionField : EvalError
deriving DecidableEq

instance {ε β : Type} [DecidableEq ε] [DecidableEq β] : DecidableEq (Except ε β) :=
  fun x y =>
    match x, y with
    | .ok a, .ok b =>
        if h : a = b then isTrue (by rw [h]) else
          isFalse (fun hc => h (Except.ok.injEq a b ▸ hc))
    | .error a, .error b =>
        if h : a = b then isTrue (by rw [h]) else
          isFalse (fun hc => h (Except.error.injEq a b ▸ hc))
    | .ok _, .error _ => isFalse (fun hc => Except.noConfusion hc)
    | .error _, .ok _ => isFalse (fun hc => Except.noConfusion hc)

/-- Modelled from the spec: walk predecessor offsets from a node toward the
anchor, collecting visited nodes in walk order (query first); `none` when the
walk does not reach the anchor within `fuel` steps or hits a missing
predecessor. -/
def walkBack (pred : Node d → Option (Node d)) (anchor : Node d) :
    ℕ → Node d → Option (List (Node d))
  | 0, n => if n = anchor then some [n] else none
  | fuel + 1, n =>
      if n = anchor then some [n]
      else
        match pred n with
        | none => none
        | some o => Option.map (fun l => n :: l) (walkBack pred anchor fuel (nodeAdd n o))

/-- Modelled from the spec: whether the predecessor walk from `n` reaches the
anchor within `fuel` steps. -/
def walkHitsAnchor (pred : Node d → Option (Node d)) (anchor : Node d) :
    ℕ → Node d → Bool
  | 0, n => decide (n = anchor)
  | fuel + 1, n =>
      decide (n = anchor) ||
        (match pred n with
         | none => false
         | some o => walkHitsAnchor pred anchor fuel (nodeAdd n o))

/-- Modelled from the spec: evaluate a query node against a built direction
field: reject out-of-bounds queries, report unreachable (unfinalized) queries,
otherwise walk back to the anchor (guarded by the total node count) and return
the collected nodes in anchor-to-query order. -/
def EvaluateAtIndex (g : Grid d) (df : BuildState d α) (anchor : Node d)
    (q : Node d) : Except EvalError (List (Node d)) :=
  if q ∈ allNodes g then
    if q ∈ df.finalized then
      match walkBack df.pred anchor (allNodes g).card q with
      | some l => .ok l.reverse
      | none => .error .inconsistentDirectionField
    else .error .unreachableQuery
  else .error .outOfBounds

/-- Modelled from the spec: a single admissible search step, from a node to a
connectivity neighbor that is in bounds and passes the mask test. -/
def AdjStep (P : SearchParams d α) (a b : Node d) : Prop :=
  ∃ o, IsLegalOffset P.faceOnly o ∧ b = nodeAdd a o ∧
    b ∈ allNodes P.grid ∧ traversable P.mask P.insideLabel b = true

/-- Modelled from the spec: a node is reachable iff some chain of admissible
steps leads to it from the anchor. -/
def Reachable (P : SearchParams d α) (q : Node d) : Prop :=
  Relation.ReflTransGen (AdjStep P) P.anchor q

/-- The invariant of the search loop.  `dist` is the cumulative-cost map,
`pred` the direction field under construction, `finalized` the settled set,
`queue` the lazy-deletion priority queue. -/
structure Inv (P : SearchParams d α) (s : BuildState d α) : Prop where
  qNodes : ∀ e ∈ s.queue, e.2 = P.anchor ∨
    (e.2 ∈ allNodes P.grid ∧ traversable P.mask P.insideLabel e.2 = true)
  qKey : ∀ e ∈ s.queue, ∃ c, s.dist e.2 = some c ∧ c ≤ e.1
  uptodate : ∀ n c, s.dist n = some c → n ∉ s.finalized →
    ∃ e ∈ s.queue, e.2 = n ∧ e.1 = c
  finalLe : ∀ v ∈ s.finalized, ∀ cv, s.dist v = some cv →
    ∀ n, n ∉ s.finalized → ∀ cn, s.dist n = some cn → cv ≤ cn
  fNodes : ∀ v ∈ s.finalized, v = P.anchor ∨
    (v ∈ allNodes P.grid ∧ traversable P.mask P.insideLabel v = true)
  fDist : ∀ v ∈ s.finalized, s.dist v ≠ none
  distNonneg : ∀ n c, s.dist n = some c → 0 ≤ c
  anchorDist : s.dist P.anchor = some 0
  predLegal : ∀ x o, s.pred x = some o → IsLegalOffset P.faceOnly o
  predTarget : ∀ x o, s.pred x = some o → nodeAdd x o ∈ s.finalized
  predNode : ∀ x o, s.pred x = some o → x ∈ allNodes P.grid ∧
    traversable P.mask P.insideLabel x = true ∧ x ≠ P.anchor
  predReach : ∀ x o, s.pred x = some o → Reachable P x
  rankCert : ∃ r : Node d → ℕ, ∀ x o, s.pred x = some o → r (nodeAdd x o) < r x
  fPred : ∀ v ∈ s.finalized, v ≠ P.anchor → s.pred v ≠ none
  qPred : ∀ e ∈ s.queue, e.2 ≠ P.anchor → s.pred e.2 ≠ none
  qReach : ∀ e ∈ s.queue, Reachable P e.2
  fReach : ∀ v ∈ s.finalized, Reachable P v
  closure : ∀ v ∈ s.finalized, ∀ o, IsLegalOffset P.faceOnly o →
    nodeAdd v o ∈ allNodes P.grid →
    traversable P.mask P.insideLabel (nodeAdd v o) = true →
    s.dist (nodeAdd v o) ≠ none
  anchorFin : s.finalized.Nonempty → P.anchor ∈ s.finalized
  emptyCase : s.finalized = ∅ → ∀ e ∈ s.queue, e.2 = P.anchor

/-- The invariant holding during the relaxation fold of one finalization of a
node `u` with settled cumulative cost `du`: like `Inv`, with the neighbor
closure of `u` itself still being established, and three facts about `u`. -/
structure MidInv (P : SearchParams d α) (u : Node d) (du : α)
    (s : BuildState d α) : Prop where
  qNodes : ∀ e ∈ s.queue, e.2 = P.anchor ∨
    (e.2 ∈ allNodes P.grid ∧ traversable P.mask P.insideLabel e.2 = true)
  qKey : ∀ e ∈ s.queue, ∃ c, s.dist e.2 = some c ∧ c ≤ e.1
  uptodate : ∀ n c, s.dist n = some c → n ∉ s.finalized →
    ∃ e ∈ s.queue, e.2 = n ∧ e.1 = c
  finalLe : ∀ v ∈ s.finalized, ∀ cv, s.dist v = some cv →
    ∀ n, n ∉ s.finalized → ∀ cn, s.dist n = some cn → cv ≤ cn
  fNodes : ∀ v ∈ s.finalized, v = P.anchor ∨
    (v ∈ allNodes P.grid ∧ traversable P.mask P.insideLabel v = true)
  fDist : ∀ v ∈ s.finalized, s.dist v ≠ none
  distNonneg : ∀ n c, s.dist n = some c → 0 ≤ c
  anchorDist : s.dist P.anchor = some 0
  predLegal : ∀ x o, s.pred x = some o → IsLegalOffset P.faceOnly o
  predTarget : ∀ x o, s.pred x = some o → nodeAdd x o ∈ s.finalized
  predNode : ∀ x o, s.pred x = some o → x ∈ allNodes P.grid ∧
    traversable P.mask P.insideLabel x = true ∧ x ≠ P.anchor
  predReach : ∀ x o, s.pred x = some o → Reachable P x
  rankCert : ∃ r : Node d → ℕ, ∀ x o, s.pred x = some o → r (nodeAdd x o) < r x
  fPred : ∀ v ∈ s.finalized, v ≠ P.anchor → s.pred v ≠ none
  qPred : ∀ e ∈ s.queue, e.2 ≠ P.anchor → s.pred e.2 ≠ none
  qReach : ∀ e ∈ s.queue, Reachable P e.2
  fReach : ∀ v ∈ s.finalized, Reachable P v
  closure : ∀ v ∈ s.finalized, v ≠ u → ∀ o, IsLegalOffset P.faceOnly o →
    nodeAdd v o ∈ allNodes P.grid →
    traversable P.mask P.insideLabel (nodeAdd v o) = true →
    s.dist (nodeAdd v o) ≠ none
  anchorFin : s.finalized.Nonempty → P.anchor ∈ s.finalized
  ufin : u ∈ s.finalized
  udist : s.dist u = some du
  fLeDu : ∀ v ∈ s.finalized, ∀ cv, s.dist v = some cv → cv ≤ du

/-- Termination measure of the search loop: unfinalized candidate nodes,
weighted by the neighbor fan-out, plus the queue length. -/
def mu (P : SearchParams d α) (s : BuildState d α) : ℕ :=
  ((insert P.anchor (allNodes P.grid)) \ s.finalized).card *
    (connectivityOffsets P.faceOnly d).length + s.queue.length

/-- Modelled from the spec: squared Euclidean norm of the componentwise
product of an offset and the per-axis spacing. -/
def offsetSpacingNormSq (o : Node d) (spacing : Fin d → ℚ) : ℚ :=
  ∑ i, ((o i : ℚ) * spacing i) ^ 2

/-- Modelled from the spec: the weight of one relaxed edge: the neighbor's
cost-field value, multiplied by the Euclidean norm of the componentwise
product of offset and spacing when use-spacing is enabled
(`UseImageSpacing` in the source header). -/
noncomputable def specEdgeWeight (useSpacing : Bool) (cost : Node d → ℝ)
    (spacing : Fin d → ℚ) (o : Node d) (v : Node d) : ℝ :=
  if useSpacing then cost v * Real.sqrt ((offsetSpacingNormSq o spacing : ℚ) : ℝ)
  else cost v

/-- The engine state: the configuration surface of the source header
(input image, mask and inside label, anchor seed, connectivity and spacing
flags), the owned direction field, and the ITK modification time modelled as
a counter.  The edge-weight function stands for the cost-field-derived
weight of the spec (see `specEdgeWeight`), kept abstract in the cost
monoid `α` so the engine is executable. -/
structure MinimalPathImageFunction (d : ℕ) (α : Type) where
  inputImage : Option (Grid d)
  maskImage : Option (Node d → ℤ)
  insideMaskPixelValue : ℤ
  anchorSeed : Node d
  useFaceConnectedness : Bool
  useImageSpacing : Bool
  ew : Node d → Node d → α
  pathDirectionImage : BuildState d α
  modifiedCount : ℕ

/-- The search parameters induced by the engine configuration for a given
installed grid. -/
def MinimalPathImageFunction.searchParams (e : MinimalPathImageFunction d α)
    (g : Grid d) : SearchParams d α :=
  { grid := g, mask := e.maskImage, insideLabel := e.insideMaskPixelValue,
    faceOnly := e.useFaceConnectedness, ew := e.ew, anchor := e.anchorSeed }

/-- `SetAnchorSeed` from the source header: when the new seed differs from the
current one, store it, regenerate the direction field if an input image is
installed, and mark the object modified; otherwise do nothing. -/
def SetAnchorSeed (e : MinimalPathImageFunction d α) (index : Node d) :
    MinimalPathImageFunction d α :=
  if e.anchorSeed ≠ index then
    match e.inputImage with
    | some g =>
        { e with
          anchorSeed := index,
          pathDirectionImage :=
            GeneratePathDirectionImage
              ({ e with anchorSeed := index }.searchParams g),
          modifiedCount := e.modifiedCount + 1 }
    | none => { e with anchorSeed := index, modifiedCount := e.modifiedCount + 1 }
  else e

/-- Modelled from the spec: the coordinate conversion provided by the
ImageFunction superclass (an external collaborator): snap a continuous index
to the nearest grid node, rounding to the nearest integer per axis. -/
def ConvertContinuousIndexToNearestIndex (c : Fin d → ℚ) : Node d :=
  fun i => round (c i)

/-- Modelled from the spec: the point-coordinate conversion provided by the
ImageFunction superclass: map a physical point to continuous index space via
origin and spacing, then round to the nearest integer per axis. -/
def ConvertPointToNearestIndex (g : Grid d) (p : Fin d → ℚ) : Node d :=
  fun i => round ((p i - g.origin i) / g.spacing i)

/-- The engine-level node query: reject when no input grid is installed,
otherwise evaluate the query node against the stored direction field. -/
def evaluateAtIndexOf (e : MinimalPathImageFunction d α) (q : Node d) :
    Except EvalError (List (Node d)) :=
  match e.inputImage with
  | none => .error .noInput
  | some g => EvaluateAtIndex g e.pathDirectionImage e.anchorSeed q

/-- `Evaluate` from the source header: convert the physical point to the
nearest grid node and delegate to the node query. -/
def Evaluate (e : MinimalPathImageFunction d α) (p : Fin d → ℚ) :
    Except EvalError (List (Node d)) :=
  match e.inputImage with
  | none => .error .noInput
  | some g => evaluateAtIndexOf e (ConvertPointToNearestIndex g p)

/-- `EvaluateAtContinuousIndex` from the source header: round the continuous
index to the nearest grid node and delegate to the node query. -/
def EvaluateAtContinuousIndex (e : MinimalPathImageFunction d α)
    (c : Fin d → ℚ) : Except EvalError (List (Node d)) :=
  evaluateAtIndexOf e (ConvertContinuousIndexToNearestIndex c)

end MinPath

namespace FEM

/-- The landmark load (itkFEMLoadLandmark.h): square root of the variance
(eta), the local point, the target and source points, and the force vector
(`Float` of the source idealised as `ℚ`). -/
structure LoadLandmark where
  eta : ℚ
  m_pt : List ℚ
  m_target : List ℚ
  m_source : List ℚ
  m_force : List ℚ

/-- One iteration of the `ScalePointAndForce` loop at index `i`: divide
target and source components by the spacing and multiply eta by `fwt`. -/
def scaleStep (spacing : ℕ → ℚ) (fwt : ℚ) (L : LoadLandmark) (i : ℕ) :
    LoadLandmark :=
  { L with
    m_target := L.m_target.set i (L.m_target.getD i 0 / spacing i),
    m_source := L.m_source.set i (L.m_source.getD i 0 / spacing i),
    eta := L.eta * fwt }

/-- `LoadLandmark::ScalePointAndForce` from the source: loop `i` over the
components of the target vector, dividing `m_target[i]` and `m_source[i]` by
`spacing[i]` and multiplying `eta` by `fwt` in every iteration. -/
def ScalePointAndForce (L : LoadLandmark) (spacing : ℕ → ℚ) (fwt : ℚ) :
    LoadLandmark :=
  (List.range L.m_target.length).foldl (scaleStep spacing fwt) L

end FEM

namespace MinPath

/-- A concrete 1-D three-node grid, used to instantiate the theorems below. -/
def g1ex : Grid 1 :=
  { size := fun _ => 3, origin := fun _ => 0, spacing := fun _ => 1 }

/-- The 1-D node with the given coordinate. -/
def nd (k : ℤ) : Node 1 := fun _ => k

/-- A concrete face-connected, unmasked search on `g1ex` with unit weights
(costs in `ℤ`, an instance of the cost monoid). -/
def P1ex : SearchParams 1 ℤ :=
  { grid := g1ex, mask := none, insideLabel := 0, faceOnly := true,
    ew := fun _ _ => 1, anchor := nd 0 }

/-- A 1-D single-node grid. -/
def gMaskEx : Grid 1 :=
  { size := fun _ => 1, origin := fun _ => 0, spacing := fun _ => 1 }

/-- A concrete search whose anchor itself fails the mask test (mask value 7,
inside label 0). -/
def PMaskEx : SearchParams 1 ℤ :=
  { grid := gMaskEx, mask := some (fun _ => 7), insideLabel := 0,
    faceOnly := true, ew := fun _ _ => 1, anchor := nd 0 }

/-- A concrete two-node search in which the non-anchor node is masked off. -/
def PMask2 : SearchParams 1 ℤ :=
  { grid := { size := fun _ => 2, origin := fun _ => 0, spacing := fun _ => 1 },
    mask := some (fun n => if n 0 = 0 then 5 else 7), insideLabel := 5,
    faceOnly := true, ew := fun _ _ => 1, anchor := nd 0 }

/-- A concrete engine configuration over `g1ex`. -/
def E0ex : MinimalPathImageFunction 1 ℤ :=
  { inputImage := some g1ex, maskImage := none, insideMaskPixelValue := 0,
    anchorSeed := nd 0, useFaceConnectedness := true, useImageSpacing := false,
    ew := fun _ _ => 1,
    pathDirectionImage := GeneratePathDirectionImage P1ex,
    modifiedCount := 0 }

/-- A concrete unit cost field in two dimensions. -/
def costEx : Node 2 → ℝ := fun _ => 1

/-- Concrete all-unit spacing in two dimensions. -/
def spEx : Fin 2 → ℚ := fun _ => 1

/-- A concrete face offset in two dimensions. -/
def oEx : Node 2 := fun i => if i = 0 then 1 else 0

/-- A concrete neighbor node in two dimensions. -/
def vEx : Node 2 := fun _ => 0

end MinPath

namespace FEM

/-- A concrete two-component landmark load. -/
def L0ex : LoadLandmark :=
  { eta := 3, m_pt := [], m_target := [1, 2], m_source := [5, 6], m_force := [] }

end FEM

namespace MinPath

variable {d : ℕ} {α : Type} [LinearOrderedAddCommMonoid α]

theorem mem_allNodes {g : Grid d} {n : Node d} :
    n ∈ allNodes g ↔ ∀ i, 0 ≤ n i ∧ n i < g.size i := by
  unfold allNodes
  simp only [Finset.mem_image, Fintype.mem_piFinset, Finset.mem_range]
  constructor
  · rintro ⟨f, hf, rfl⟩ i
    have hfi := hf i
    have : ((f i : ℕ) : ℤ) < (g.size i : ℤ) := by exact_mod_cast hfi
    exact ⟨Int.ofNat_nonneg _, this⟩
  · intro h
    refine ⟨fun i => (n i).toNat, fun i => ?_, funext fun i => Int.toNat_of_nonneg (h i).1⟩
    show (n i).toNat < g.size i
    have h1 := (h i).1
    have h2 := (h i).2
    omega

theorem mem_unitCubeOffsets {n : ℕ} {o : Fin n → ℤ} :
    o ∈ unitCubeOffsets n ↔ ∀ i, o i = -1 ∨ o i = 0 ∨ o i = 1 := by
  induction n with
  | zero =>
      constructor
      · intro _ i
        exact i.elim0
      · intro _
        unfold unitCubeOffsets
        simp only [List.mem_singleton]
        exact funext fun i => i.elim0
  | succ n ih =>
      unfold unitCubeOffsets
      simp only [List.mem_flatMap, List.mem_map]
      constructor
      · rintro ⟨f, hf, z, hz, rfl⟩ i
        refine Fin.cases ?_ (fun j => ?_) i
        · simpa [Fin.cons] using (by simpa using hz)
        · simpa [Fin.cons] using (ih.mp hf) j
      · intro h
        refine ⟨Fin.tail o, ih.mpr (fun j => h j.succ), o 0, ?_, Fin.cons_self_tail o⟩
        simpa using h 0

theorem mem_connectivityOffsets {faceOnly : Bool} {o : Node d} :
    o ∈ connectivityOffsets faceOnly d ↔ IsLegalOffset faceOnly o := by
  unfold connectivityOffsets
  simp only [List.mem_filter, decide_eq_true_eq]
  constructor
  · exact fun h => h.2
  · intro h
    exact ⟨mem_unitCubeOffsets.mpr h.1, h⟩

theorem IsLegalOffset.neg {faceOnly : Bool} {o : Node d}
    (h : IsLegalOffset faceOnly o) : IsLegalOffset faceOnly (nodeNeg o) := by
  obtain ⟨h1, h2, h3⟩ := h
  refine ⟨fun i => ?_, fun hz => h2 (fun i => ?_), fun hf => ?_⟩
  · rcases h1 i with h | h | h <;> simp [nodeNeg, h]
  · have := hz i
    simp only [nodeNeg, neg_eq_zero] at this
    exact this
  · rw [← h3 hf]
    exact Finset.sum_congr rfl (fun i _ => by simp [nodeNeg])

theorem nodeAdd_nodeNeg (u o : Node d) : nodeAdd (nodeAdd u o) (nodeNeg o) = u := by
  funext i
  simp [nodeAdd, nodeNeg]

theorem nodeAdd_ne {faceOnly : Bool} {o : Node d} (h : IsLegalOffset faceOnly o)
    (u : Node d) : nodeAdd u o ≠ u := by
  intro hc
  refine h.2.1 (fun i => ?_)
  have := congrFun hc i
  simp only [nodeAdd] at this
  omega

theorem minEntry_mem (x : α × Node d) (l : List (α × Node d)) :
    minEntry x l ∈ x :: l := by
  induction l generalizing x with
  | nil => simp [minEntry]
  | cons y ys ih =>
      unfold minEntry
      by_cases h : y.1 < x.1
      · simp only [h, if_true]
        rcases List.mem_cons.mp (ih y) with h' | h'
        · simp [h']
        · simp [List.mem_cons, h']
      · simp only [h, if_false]
        rcases List.mem_cons.mp (ih x) with h' | h'
        · simp [h']
        · simp [List.mem_cons, h']

theorem minEntry_le (x : α × Node d) (l : List (α × Node d)) :
    ∀ y ∈ x :: l, (minEntry x l).1 ≤ y.1 := by
  induction l generalizing x with
  | nil =>
      intro y hy
      rcases List.mem_singleton.mp hy with rfl
      simp [minEntry]
  | cons z zs ih =>
      intro y hy
      unfold minEntry
      by_cases h : z.1 < x.1
      · simp only [h, if_true]
        rcases List.mem_cons.mp hy with hxy | hy'
        · subst hxy
          exact le_of_lt (lt_of_le_of_lt (ih z z (by simp)) h)
        · rcases List.mem_cons.mp hy' with hzy | hy''
          · subst hzy
            exact ih y y (by simp)
          · exact ih z y (List.mem_cons_of_mem _ hy'')
      · simp only [h, if_false]
        rcases List.mem_cons.mp hy with hxy | hy'
        · subst hxy
          exact ih y y (by simp)
        · rcases List.mem_cons.mp hy' with hzy | hy''
          · subst hzy
            exact le_trans (ih x x (by simp)) (not_lt.mp h)
          · exact ih x y (List.mem_cons_of_mem _ hy'')

end MinPath

namespace MinPath

variable {d : ℕ} {α : Type} [LinearOrderedAddCommMonoid α]

theorem distLT_true_iff (cand : α) (x : Option α) :
    distLT cand x = true ↔ (x = none ∨ ∃ c, x = some c ∧ cand < c) := by
  cases x <;> simp [distLT]

theorem relaxOne_eq_update {P : SearchParams d α} {u o : Node d} {du : α}
    {s : BuildState d α}
    (hcond : nodeAdd u o ∈ allNodes P.grid ∧
      traversable P.mask P.insideLabel (nodeAdd u o) = true ∧
      distLT (du + P.ew o (nodeAdd u o)) (s.dist (nodeAdd u o)) = true) :
    relaxOne P u du s o =
      { s with
        dist := fun x => if x = nodeAdd u o then some (du + P.ew o (nodeAdd u o)) else s.dist x,
        pred := fun x => if x = nodeAdd u o then some (nodeNeg o) else s.pred x,
        queue := (du + P.ew o (nodeAdd u o), nodeAdd u o) :: s.queue } := by
  simp only [relaxOne, hcond, and_self, if_true]

theorem relaxOne_eq_skip {P : SearchParams d α} {u o : Node d} {du : α}
    {s : BuildState d α}
    (hcond : ¬(nodeAdd u o ∈ allNodes P.grid ∧
      traversable P.mask P.insideLabel (nodeAdd u o) = true ∧
      distLT (du + P.ew o (nodeAdd u o)) (s.dist (nodeAdd u o)) = true)) :
    relaxOne P u du s o = s := by
  simp only [relaxOne, hcond, if_false]

theorem noRelaxFinal {P : SearchParams d α} {u o : Node d} {du : α}
    {s : BuildState d α} (hw : ∀ o v, 0 ≤ P.ew o v)
    (h : MidInv P u du s) (hfin : nodeAdd u o ∈ s.finalized) :
    distLT (du + P.ew o (nodeAdd u o)) (s.dist (nodeAdd u o)) = false := by
  set v := nodeAdd u o with hv
  obtain ⟨cv, hcv⟩ : ∃ cv, s.dist v = some cv := by
    rcases hx : s.dist v with _ | cv
    · exact absurd hx (h.fDist v hfin)
    · exact ⟨cv, rfl⟩
  have hle : cv ≤ du := h.fLeDu v hfin cv hcv
  have : ¬ (du + P.ew o v < cv) := by
    intro hc
    exact absurd (lt_of_lt_of_le hc (hle.trans (le_add_of_nonneg_right (hw o v)))) (lt_irrefl _)
  simp [distLT, hcv, this]

theorem relaxOne_finalized (P : SearchParams d α) (u o : Node d) (du : α)
    (s : BuildState d α) : (relaxOne P u du s o).finalized = s.finalized := by
  unfold relaxOne
  split <;> rfl

theorem relaxOne_dist_mono {P : SearchParams d α} {u o : Node d} {du : α}
    {s : BuildState d α} {n : Node d} (hn : s.dist n ≠ none) :
    (relaxOne P u du s o).dist n ≠ none := by
  simp only [relaxOne]
  split
  · by_cases hnv : n = nodeAdd u o <;> simp [hnv, hn]
  · exact hn

theorem relaxOne_queue_len (P : SearchParams d α) (u o : Node d) (du : α)
    (s : BuildState d α) :
    (relaxOne P u du s o).queue.length ≤ s.queue.length + 1 := by
  simp only [relaxOne]
  split
  · simp
  · simp

theorem relaxOne_covers {P : SearchParams d α} {u o : Node d} {du : α}
    {s : BuildState d α}
    (hv : nodeAdd u o ∈ allNodes P.grid)
    (ht : traversable P.mask P.insideLabel (nodeAdd u o) = true) :
    (relaxOne P u du s o).dist (nodeAdd u o) ≠ none := by
  simp only [relaxOne]
  split
  · simp
  · rename_i hcond
    rcases hx : s.dist (nodeAdd u o) with _ | c
    · exact absurd ⟨hv, ht, by simp [distLT, hx]⟩ hcond
    · simp [hx]

end MinPath

namespace MinPath

variable {d : ℕ} {α : Type} [LinearOrderedAddCommMonoid α]

theorem relaxOne_midinv {P : SearchParams d α} {u o : Node d} {du : α}
    {s : BuildState d α} (hw : ∀ o v, 0 ≤ P.ew o v)
    (ho : IsLegalOffset P.faceOnly o) (h : MidInv P u du s) :
    MidInv P u du (relaxOne P u du s o) := by
  by_cases hcond : nodeAdd u o ∈ allNodes P.grid ∧
      traversable P.mask P.insideLabel (nodeAdd u o) = true ∧
      distLT (du + P.ew o (nodeAdd u o)) (s.dist (nodeAdd u o)) = true
  case neg => rw [relaxOne_eq_skip hcond]; exact h
  obtain ⟨hv, ht, hlt⟩ := hcond
  rw [relaxOne_eq_update ⟨hv, ht, hlt⟩]
  have hvnf : nodeAdd u o ∉ s.finalized := by
    intro hf
    rw [noRelaxFinal hw h hf] at hlt
    exact Bool.false_ne_true hlt
  have huv : u ≠ nodeAdd u o := fun he => hvnf (he ▸ h.ufin)
  have hvanch : nodeAdd u o ≠ P.anchor :=
    fun he => hvnf (he ▸ h.anchorFin ⟨u, h.ufin⟩)
  have hdu0 : 0 ≤ du := h.distNonneg u du h.udist
  have hcand0 : 0 ≤ du + P.ew o (nodeAdd u o) := add_nonneg hdu0 (hw o _)
  have hducand : du ≤ du + P.ew o (nodeAdd u o) := le_add_of_nonneg_right (hw o _)
  refine
    { qNodes := ?_, qKey := ?_, uptodate := ?_, finalLe := ?_, fNodes := ?_,
      fDist := ?_, distNonneg := ?_, anchorDist := ?_, predLegal := ?_,
      predTarget := ?_, predNode := ?_, predReach := ?_, rankCert := ?_,
      fPred := ?_, qPred := ?_, qReach := ?_, fReach := ?_, closure := ?_,
      anchorFin := ?_, ufin := ?_, udist := ?_, fLeDu := ?_ }
  · intro e he
    rcases List.mem_cons.mp he with rfl | he'
    · exact Or.inr ⟨hv, ht⟩
    · exact h.qNodes e he'
  · intro e he
    rcases List.mem_cons.mp he with rfl | he'
    · exact ⟨du + P.ew o (nodeAdd u o), by simp, le_rfl⟩
    · obtain ⟨c, hc, hce⟩ := h.qKey e he'
      by_cases hev : e.2 = nodeAdd u o
      · refine ⟨du + P.ew o (nodeAdd u o), by simp [hev], ?_⟩
        rw [hev] at hc
        rw [hc] at hlt
        simp only [distLT, decide_eq_true_eq] at hlt
        exact le_trans hlt.le hce
      · exact ⟨c, by simp [hev, hc], hce⟩
  · intro n c hn hnf
    by_cases hnv : n = nodeAdd u o
    · have hsc : some (du + P.ew o (nodeAdd u o)) = some c := by simpa [hnv] using hn
      have hcc : du + P.ew o (nodeAdd u o) = c := by injection hsc
      exact ⟨(du + P.ew o (nodeAdd u o), nodeAdd u o), List.mem_cons_self _ _,
        hnv.symm, hcc⟩
    · have hn' : s.dist n = some c := by simpa [hnv] using hn
      obtain ⟨e, he, hen, hek⟩ := h.uptodate n c hn' hnf
      exact ⟨e, List.mem_cons_of_mem _ he, hen, hek⟩
  · intro f hf cv hcv n hnf cn hcn
    have hfv : f ≠ nodeAdd u o := fun he => hvnf (he ▸ hf)
    have hcv' : s.dist f = some cv := by simpa [hfv] using hcv
    by_cases hnv : n = nodeAdd u o
    · have hsc : some (du + P.ew o (nodeAdd u o)) = some cn := by simpa [hnv] using hcn
      have hcc : du + P.ew o (nodeAdd u o) = cn := by injection hsc
      exact hcc ▸ le_trans (h.fLeDu f hf cv hcv') hducand
    · have hcn' : s.dist n = some cn := by simpa [hnv] using hcn
      exact h.finalLe f hf cv hcv' n hnf cn hcn'
  · exact h.fNodes
  · intro f hf
    by_cases hfv : f = nodeAdd u o
    · exact absurd (hfv ▸ hf) hvnf
    · simpa [hfv] using h.fDist f hf
  · intro n c hn
    by_cases hnv : n = nodeAdd u o
    · have hsc : some (du + P.ew o (nodeAdd u o)) = some c := by simpa [hnv] using hn
      have hcc : du + P.ew o (nodeAdd u o) = c := by injection hsc
      exact hcc ▸ hcand0
    · exact h.distNonneg n c (by simpa [hnv] using hn)
  · simpa [Ne.symm hvanch] using h.anchorDist
  · intro x o' hx
    by_cases hxv : x = nodeAdd u o
    · have hsc : some (nodeNeg o) = some o' := by simpa [hxv] using hx
      have heq : nodeNeg o = o' := by injection hsc
      exact heq ▸ ho.neg
    · exact h.predLegal x o' (by simpa [hxv] using hx)
  · intro x o' hx
    by_cases hxv : x = nodeAdd u o
    · subst hxv
      have hsc : some (nodeNeg o) = some o' := by simpa using hx
      have heq : nodeNeg o = o' := by injection hsc
      rw [← heq, nodeAdd_nodeNeg]
      exact h.ufin
    · exact h.predTarget x o' (by simpa [hxv] using hx)
  · intro x o' hx
    by_cases hxv : x = nodeAdd u o
    · subst hxv
      exact ⟨hv, ht, hvanch⟩
    · exact h.predNode x o' (by simpa [hxv] using hx)
  · intro x o' hx
    by_cases hxv : x = nodeAdd u o
    · subst hxv
      exact Relation.ReflTransGen.tail (h.fReach u h.ufin) ⟨o, ho, rfl, hv, ht⟩
    · exact h.predReach x o' (by simpa [hxv] using hx)
  · obtain ⟨r, hr⟩ := h.rankCert
    refine ⟨fun x => if x = nodeAdd u o then r u + 1 else r x, ?_⟩
    intro x o' hx
    by_cases hxv : x = nodeAdd u o
    · subst hxv
      have hsc : some (nodeNeg o) = some o' := by simpa using hx
      have heq : nodeNeg o = o' := by injection hsc
      have htarget : nodeAdd (nodeAdd u o) o' = u := by rw [← heq, nodeAdd_nodeNeg]
      rw [htarget]
      simp [huv]
    · have hx' : s.pred x = some o' := by simpa [hxv] using hx
      have htf : nodeAdd x o' ∈ s.finalized := h.predTarget x o' hx'
      have htv : nodeAdd x o' ≠ nodeAdd u o := fun he => hvnf (he ▸ htf)
      simpa [hxv, htv] using hr x o' hx'
  · intro f hf hfa
    by_cases hfv : f = nodeAdd u o
    · exact absurd (hfv ▸ hf) hvnf
    · simpa [hfv] using h.fPred f hf hfa
  · intro e he hea
    rcases List.mem_cons.mp he with rfl | he'
    · simp
    · by_cases hev : e.2 = nodeAdd u o
      · simp [hev]
      · simpa [hev] using h.qPred e he' hea
  · intro e he
    rcases List.mem_cons.mp he with rfl | he'
    · exact Relation.ReflTransGen.tail (h.fReach u h.ufin) ⟨o, ho, rfl, hv, ht⟩
    · exact h.qReach e he'
  · exact h.fReach
  · intro f hf hfu o' ho' hb htr
    have hdist := h.closure f hf hfu o' ho' hb htr
    by_cases hfo : nodeAdd f o' = nodeAdd u o
    · simp [hfo]
    · simpa [hfo] using hdist
  · exact h.anchorFin
  · exact h.ufin
  · simpa [huv] using h.udist
  · intro f hf cv hcv
    have hfv : f ≠ nodeAdd u o := fun he => hvnf (he ▸ hf)
    exact h.fLeDu f hf cv (by simpa [hfv] using hcv)

end MinPath

namespace MinPath

variable {d : ℕ} {α : Type} [LinearOrderedAddCommMonoid α]

theorem foldl_relax_finalized (P : SearchParams d α) (u : Node d) (du : α) :
    ∀ (l : List (Node d)) (s : BuildState d α),
      (l.foldl (relaxOne P u du) s).finalized = s.finalized := by
  intro l
  induction l with
  | nil => intro s; rfl
  | cons o l ih =>
      intro s
      rw [List.foldl_cons, ih, relaxOne_finalized]

theorem foldl_dist_mono (P : SearchParams d α) (u : Node d) (du : α) :
    ∀ (l : List (Node d)) (s : BuildState d α) (n : Node d),
      s.dist n ≠ none → (l.foldl (relaxOne P u du) s).dist n ≠ none := by
  intro l
  induction l with
  | nil => intro s n h; exact h
  | cons o l ih =>
      intro s n h
      rw [List.foldl_cons]
      exact ih _ n (relaxOne_dist_mono h)

theorem foldl_relax_midinv {P : SearchParams d α} {u : Node d} {du : α}
    (hw : ∀ o v, 0 ≤ P.ew o v) :
    ∀ (l : List (Node d)) (s : BuildState d α),
      (∀ o ∈ l, IsLegalOffset P.faceOnly o) → MidInv P u du s →
      MidInv P u du (l.foldl (relaxOne P u du) s) ∧
        (∀ o ∈ l, nodeAdd u o ∈ allNodes P.grid →
          traversable P.mask P.insideLabel (nodeAdd u o) = true →
          (l.foldl (relaxOne P u du) s).dist (nodeAdd u o) ≠ none) ∧
        (l.foldl (relaxOne P u du) s).queue.length ≤ s.queue.length + l.length := by
  intro l
  induction l with
  | nil =>
      intro s _ h
      exact ⟨h, by simp, by simp⟩
  | cons o l ih =>
      intro s hl h
      have ho : IsLegalOffset P.faceOnly o := hl o (List.mem_cons_self _ _)
      have hl' : ∀ o' ∈ l, IsLegalOffset P.faceOnly o' :=
        fun o' h' => hl o' (List.mem_cons_of_mem _ h')
      rw [List.foldl_cons]
      obtain ⟨hmid, hcov, hlen⟩ := ih (relaxOne P u du s o) hl' (relaxOne_midinv hw ho h)
      refine ⟨hmid, ?_, ?_⟩
      · intro o' ho' hb ht
        rcases List.mem_cons.mp ho' with rfl | ho''
        · exact foldl_dist_mono P u du l _ _ (relaxOne_covers hb ht)
        · exact hcov o' ho'' hb ht
      · calc (l.foldl (relaxOne P u du) (relaxOne P u du s o)).queue.length
            ≤ (relaxOne P u du s o).queue.length + l.length := hlen
          _ ≤ s.queue.length + 1 + l.length := by
              exact Nat.add_le_add_right (relaxOne_queue_len P u o du s) _
          _ = s.queue.length + (o :: l).length := by simp [Nat.add_assoc, Nat.add_comm 1]

end MinPath

namespace MinPath

variable {d : ℕ} {α : Type} [LinearOrderedAddCommMonoid α]

theorem foldl_relax_queue_len (P : SearchParams d α) (u : Node d) (du : α) :
    ∀ (l : List (Node d)) (s : BuildState d α),
      (l.foldl (relaxOne P u du) s).queue.length ≤ s.queue.length + l.length := by
  intro l
  induction l with
  | nil => intro s; simp
  | cons o l ih =>
      intro s
      rw [List.foldl_cons]
      calc (l.foldl (relaxOne P u du) (relaxOne P u du s o)).queue.length
          ≤ (relaxOne P u du s o).queue.length + l.length := ih _
        _ ≤ s.queue.length + 1 + l.length :=
            Nat.add_le_add_right (relaxOne_queue_len P u o du s) _
        _ = s.queue.length + (o :: l).length := by simp [Nat.add_assoc, Nat.add_comm 1]

theorem buildStep_inv {P : SearchParams d α} (hw : ∀ o v, 0 ≤ P.ew o v)
    {s : BuildState d α} (h : Inv P s) {x : α × Node d} {xs : List (α × Node d)}
    (hq : s.queue = x :: xs) :
    Inv P (buildStep P s (minEntry x xs) ((x :: xs).erase (minEntry x xs))) := by
  have hme : minEntry x xs ∈ s.queue := by rw [hq]; exact minEntry_mem x xs
  have hrest_sub : ∀ y ∈ (x :: xs).erase (minEntry x xs), y ∈ s.queue := by
    intro y hy
    rw [hq]
    exact List.mem_of_mem_erase hy
  by_cases hufin : (minEntry x xs).2 ∈ s.finalized
  · simp only [buildStep, hufin, if_true]
    refine
      { qNodes := fun e he => h.qNodes e (hrest_sub e he),
        qKey := fun e he => h.qKey e (hrest_sub e he),
        uptodate := ?_,
        finalLe := h.finalLe, fNodes := h.fNodes, fDist := h.fDist,
        distNonneg := h.distNonneg, anchorDist := h.anchorDist,
        predLegal := h.predLegal, predTarget := h.predTarget,
        predNode := h.predNode, predReach := h.predReach, rankCert := h.rankCert,
        fPred := h.fPred,
        qPred := fun e he => h.qPred e (hrest_sub e he),
        qReach := fun e he => h.qReach e (hrest_sub e he),
        fReach := h.fReach, closure := h.closure,
        anchorFin := h.anchorFin,
        emptyCase := fun hemp e he => h.emptyCase hemp e (hrest_sub e he) }
    intro n c hn hnf
    obtain ⟨e, he, hen, hek⟩ := h.uptodate n c hn hnf
    refine ⟨e, ?_, hen, hek⟩
    rw [hq] at he
    have hne : e ≠ minEntry x xs := by
      intro hcontra
      apply hnf
      rw [hcontra] at hen
      exact hen ▸ hufin
    exact (List.mem_erase_of_ne hne).mpr he
  · simp only [buildStep, hufin, if_false]
    obtain ⟨c, hc, hce⟩ := h.qKey _ hme
    have hdu : ((s.dist (minEntry x xs).2).getD (minEntry x xs).1) = c := by
      rw [hc]
      rfl
    rw [hdu]
    have hanchins : P.anchor ∈ insert (minEntry x xs).2 s.finalized := by
      rcases Finset.eq_empty_or_nonempty s.finalized with hemp | hne
      · have ha : (minEntry x xs).2 = P.anchor := h.emptyCase hemp _ hme
        rw [ha]
        exact Finset.mem_insert_self _ _
      · exact Finset.mem_insert_of_mem (h.anchorFin hne)
    have hminkey : ∀ y ∈ s.queue, (minEntry x xs).1 ≤ y.1 := by
      rw [hq]
      exact minEntry_le x xs
    have hdule : ∀ n, n ∉ s.finalized → ∀ cn, s.dist n = some cn → c ≤ cn := by
      intro n hnf cn hcn
      obtain ⟨en, hen, _, henk⟩ := h.uptodate n cn hcn hnf
      calc c ≤ (minEntry x xs).1 := hce
        _ ≤ en.1 := hminkey en hen
        _ = cn := henk
    have hmid : MidInv P (minEntry x xs).2 c
        { s with queue := (x :: xs).erase (minEntry x xs),
                 finalized := insert (minEntry x xs).2 s.finalized } := by
      refine
        { qNodes := fun e he => h.qNodes e (hrest_sub e he),
          qKey := fun e he => h.qKey e (hrest_sub e he),
          uptodate := ?_, finalLe := ?_, fNodes := ?_, fDist := ?_,
          distNonneg := h.distNonneg, anchorDist := h.anchorDist,
          predLegal := h.predLegal,
          predTarget := fun y o hy => Finset.mem_insert_of_mem (h.predTarget y o hy),
          predNode := h.predNode, predReach := h.predReach, rankCert := h.rankCert,
          fPred := ?_,
          qPred := fun e he => h.qPred e (hrest_sub e he),
          qReach := fun e he => h.qReach e (hrest_sub e he),
          fReach := ?_, closure := ?_,
          anchorFin := fun _ => hanchins,
          ufin := Finset.mem_insert_self _ _,
          udist := hc,
          fLeDu := ?_ }
      · intro n cn hn hnf
        obtain ⟨e, he, hen, hek⟩ := h.uptodate n cn hn
          (fun hmem => hnf (Finset.mem_insert_of_mem hmem))
        refine ⟨e, ?_, hen, hek⟩
        rw [hq] at he
        have hne : e ≠ minEntry x xs := by
          intro hcontra
          apply hnf
          rw [hcontra] at hen
          exact hen ▸ Finset.mem_insert_self _ _
        exact (List.mem_erase_of_ne hne).mpr he
      · intro v hv cv hcv n hnf cn hcn
        have hnF : n ∉ s.finalized := fun he => hnf (Finset.mem_insert_of_mem he)
        rcases Finset.mem_insert.mp hv with hvu | hvF
        · have hcvc : cv = c := by
            rw [hvu] at hcv
            rw [hcv] at hc
            injection hc
          exact hcvc ▸ hdule n hnF cn hcn
        · exact h.finalLe v hvF cv hcv n hnF cn hcn
      · intro v hv
        rcases Finset.mem_insert.mp hv with hvu | hvF
        · exact hvu ▸ h.qNodes _ hme
        · exact h.fNodes v hvF
      · intro v hv
        rcases Finset.mem_insert.mp hv with hvu | hvF
        · rw [hvu, hc]
          exact fun hcontra => Option.noConfusion hcontra
        · exact h.fDist v hvF
      · intro v hv hva
        rcases Finset.mem_insert.mp hv with hvu | hvF
        · exact hvu ▸ h.qPred _ hme (hvu ▸ hva)
        · exact h.fPred v hvF hva
      · intro v hv
        rcases Finset.mem_insert.mp hv with hvu | hvF
        · exact hvu ▸ h.qReach _ hme
        · exact h.fReach v hvF
      · intro v hv hvu o ho hb ht
        rcases Finset.mem_insert.mp hv with hvu' | hvF
        · exact absurd hvu' hvu
        · exact h.closure v hvF o ho hb ht
      · intro v hv cv hcv
        rcases Finset.mem_insert.mp hv with hvu | hvF
        · have hcvc : cv = c := by
            rw [hvu] at hcv
            rw [hcv] at hc
            injection hc
          exact le_of_eq hcvc
        · exact h.finalLe v hvF cv hcv _ hufin c hc
    have hlegal : ∀ o ∈ connectivityOffsets P.faceOnly d, IsLegalOffset P.faceOnly o :=
      fun o ho => mem_connectivityOffsets.mp ho
    obtain ⟨hmid2, hcov, _⟩ :=
      foldl_relax_midinv hw (connectivityOffsets P.faceOnly d) _ hlegal hmid
    refine
      { qNodes := hmid2.qNodes, qKey := hmid2.qKey, uptodate := hmid2.uptodate,
        finalLe := hmid2.finalLe, fNodes := hmid2.fNodes, fDist := hmid2.fDist,
        distNonneg := hmid2.distNonneg, anchorDist := hmid2.anchorDist,
        predLegal := hmid2.predLegal, predTarget := hmid2.predTarget,
        predNode := hmid2.predNode, predReach := hmid2.predReach,
        rankCert := hmid2.rankCert,
        fPred := hmid2.fPred, qPred := hmid2.qPred, qReach := hmid2.qReach,
        fReach := hmid2.fReach, closure := ?_, anchorFin := hmid2.anchorFin,
        emptyCase := ?_ }
    · intro v hv o ho hb ht
      by_cases hvu : v = (minEntry x xs).2
      · rw [hvu] at hb ht ⊢
        exact hcov o (mem_connectivityOffsets.mpr ho) hb ht
      · exact hmid2.closure v hv hvu o ho hb ht
    · intro hemp
      exfalso
      have hin := hmid2.ufin
      rw [hemp] at hin
      exact absurd hin (Finset.not_mem_empty _)

end MinPath

namespace MinPath

variable {d : ℕ} {α : Type} [LinearOrderedAddCommMonoid α]

theorem buildStep_mu {P : SearchParams d α} {s : BuildState d α} (h : Inv P s)
    {x : α × Node d} {xs : List (α × Node d)} (hq : s.queue = x :: xs) :
    mu P (buildStep P s (minEntry x xs) ((x :: xs).erase (minEntry x xs))) <
      mu P s := by
  have hme : minEntry x xs ∈ s.queue := by rw [hq]; exact minEntry_mem x xs
  have hlen : ((x :: xs).erase (minEntry x xs)).length = xs.length := by
    rw [List.length_erase_of_mem (minEntry_mem x xs)]
    rfl
  by_cases hufin : (minEntry x xs).2 ∈ s.finalized
  · simp only [buildStep, hufin, if_true]
    unfold mu
    simp only [hlen, hq]
    simp only [List.length_cons]
    omega
  · simp only [buildStep, hufin, if_false]
    have huS : (minEntry x xs).2 ∈ insert P.anchor (allNodes P.grid) := by
      rcases h.qNodes _ hme with ha | hb
      · rw [ha]; exact Finset.mem_insert_self _ _
      · exact Finset.mem_insert_of_mem hb.1
    have humem : (minEntry x xs).2 ∈
        (insert P.anchor (allNodes P.grid)) \ s.finalized :=
      Finset.mem_sdiff.mpr ⟨huS, hufin⟩
    have hcard : ((insert P.anchor (allNodes P.grid)) \
          insert (minEntry x xs).2 s.finalized).card + 1 =
        ((insert P.anchor (allNodes P.grid)) \ s.finalized).card := by
      rw [Finset.sdiff_insert, Finset.card_erase_of_mem humem]
      have hpos : 0 < ((insert P.anchor (allNodes P.grid)) \ s.finalized).card :=
        Finset.card_pos.mpr ⟨_, humem⟩
      omega
    have hql := foldl_relax_queue_len P (minEntry x xs).2
      ((s.dist (minEntry x xs).2).getD (minEntry x xs).1)
      (connectivityOffsets P.faceOnly d)
      { s with queue := (x :: xs).erase (minEntry x xs),
               finalized := insert (minEntry x xs).2 s.finalized }
    unfold mu
    rw [foldl_relax_finalized, hq]
    simp only [List.length_cons]
    simp only [hlen] at hql
    rw [← hcard, Nat.succ_mul]
    omega

theorem buildLoop_inv {P : SearchParams d α} (hw : ∀ o v, 0 ≤ P.ew o v) :
    ∀ (fuel : ℕ) (s : BuildState d α), Inv P s → mu P s ≤ fuel →
      Inv P (buildLoop P fuel s) ∧ (buildLoop P fuel s).queue = [] := by
  intro fuel
  induction fuel with
  | zero =>
      intro s h hmu
      have hq : s.queue = [] := by
        have : s.queue.length = 0 := by
          unfold mu at hmu
          omega
        exact List.length_eq_zero.mp this
      exact ⟨h, hq⟩
  | succ fuel ih =>
      intro s h hmu
      rcases hq : s.queue with _ | ⟨x, xs⟩
      · have hloop : buildLoop P (fuel + 1) s = s := by
          simp only [buildLoop, hq]
        rw [hloop]
        exact ⟨h, hq⟩
      · have hloop : buildLoop P (fuel + 1) s =
            buildLoop P fuel
              (buildStep P s (minEntry x xs) ((x :: xs).erase (minEntry x xs))) := by
          simp only [buildLoop, hq]
        rw [hloop]
        have hinv := buildStep_inv hw h hq
        have hmu' := buildStep_mu h hq
        exact ih _ hinv (by omega)

theorem initialState_inv (P : SearchParams d α) : Inv P (initialState P) := by
  refine
    { qNodes := ?_, qKey := ?_, uptodate := ?_, finalLe := ?_, fNodes := ?_,
      fDist := ?_, distNonneg := ?_, anchorDist := ?_, predLegal := ?_,
      predTarget := ?_, predNode := ?_, predReach := ?_, rankCert := ?_,
      fPred := ?_, qPred := ?_, qReach := ?_, fReach := ?_, closure := ?_,
      anchorFin := ?_, emptyCase := ?_ }
  · intro e he
    rcases List.mem_singleton.mp he with rfl
    exact Or.inl rfl
  · intro e he
    rcases List.mem_singleton.mp he with rfl
    exact ⟨0, by simp [initialState], le_rfl⟩
  · intro n c hn _
    by_cases hna : n = P.anchor
    · refine ⟨(0, P.anchor), List.mem_singleton_self _, hna.symm, ?_⟩
      have : some (0 : α) = some c := by simpa [initialState, hna] using hn
      injection this
    · exact absurd hn (by simp [initialState, hna])
  · intro v hv
    exact absurd hv (Finset.not_mem_empty v)
  · intro v hv
    exact absurd hv (Finset.not_mem_empty v)
  · intro v hv
    exact absurd hv (Finset.not_mem_empty v)
  · intro n c hn
    by_cases hna : n = P.anchor
    · have : some (0 : α) = some c := by simpa [initialState, hna] using hn
      have hc : (0 : α) = c := by injection this
      exact hc ▸ le_rfl
    · exact absurd hn (by simp [initialState, hna])
  · simp [initialState]
  · intro x o hx
    exact absurd hx (by simp [initialState])
  · intro x o hx
    exact absurd hx (by simp [initialState])
  · intro x o hx
    exact absurd hx (by simp [initialState])
  · intro x o hx
    exact absurd hx (by simp [initialState])
  · exact ⟨fun _ => 0, fun x o hx => absurd hx (by simp [initialState])⟩
  · intro v hv
    exact absurd hv (Finset.not_mem_empty v)
  · intro e he hea
    rcases List.mem_singleton.mp he with rfl
    exact absurd rfl hea
  · intro e he
    rcases List.mem_singleton.mp he with rfl
    exact Relation.ReflTransGen.refl
  · intro v hv
    exact absurd hv (Finset.not_mem_empty v)
  · intro v hv
    exact absurd hv (Finset.not_mem_empty v)
  · intro hne
    exact absurd hne (by simp [initialState])
  · intro _ e he
    rcases List.mem_singleton.mp he with rfl
    rfl

theorem generate_inv {P : SearchParams d α} (hw : ∀ o v, 0 ≤ P.ew o v) :
    Inv P (GeneratePathDirectionImage P) ∧
      (GeneratePathDirectionImage P).queue = [] := by
  unfold GeneratePathDirectionImage
  refine buildLoop_inv hw (buildFuel P) (initialState P) (initialState_inv P) ?_
  unfold mu buildFuel
  simp [initialState]

end MinPath

namespace MinPath

variable {d : ℕ} {α : Type} [LinearOrderedAddCommMonoid α]

theorem anchor_finalized {P : SearchParams d α} {s : BuildState d α}
    (h : Inv P s) (hq : s.queue = []) : P.anchor ∈ s.finalized := by
  by_contra hnf
  obtain ⟨e, he, _, _⟩ := h.uptodate P.anchor 0 h.anchorDist hnf
  rw [hq] at he
  exact absurd he (List.not_mem_nil e)

theorem finalized_closed {P : SearchParams d α} {s : BuildState d α}
    (h : Inv P s) (hq : s.queue = []) :
    ∀ u ∈ s.finalized, ∀ o, IsLegalOffset P.faceOnly o →
      nodeAdd u o ∈ allNodes P.grid →
      traversable P.mask P.insideLabel (nodeAdd u o) = true →
      nodeAdd u o ∈ s.finalized := by
  intro u hu o ho hb ht
  have hd := h.closure u hu o ho hb ht
  rcases hx : s.dist (nodeAdd u o) with _ | c
  · exact absurd hx hd
  · by_contra hnf
    obtain ⟨e, he, _, _⟩ := h.uptodate (nodeAdd u o) c hx hnf
    rw [hq] at he
    exact absurd he (List.not_mem_nil e)

theorem reachable_finalized {P : SearchParams d α} {s : BuildState d α}
    (h : Inv P s) (hq : s.queue = []) {n : Node d} (hr : Reachable P n) :
    n ∈ s.finalized := by
  induction hr with
  | refl => exact anchor_finalized h hq
  | tail _ hstep ih =>
      obtain ⟨o, ho, hb, hmem, ht⟩ := hstep
      rw [hb]
      exact finalized_closed h hq _ ih o ho (hb ▸ hmem) (hb ▸ ht)

theorem walkBack_anchor (pred : Node d → Option (Node d)) (anchor : Node d)
    (fuel : ℕ) : walkBack pred anchor fuel anchor = some [anchor] := by
  cases fuel <;> simp [walkBack]

theorem walkBack_total {P : SearchParams d α} {s : BuildState d α} (h : Inv P s)
    (ha : P.anchor ∈ allNodes P.grid) {q : Node d} (hqfin : q ∈ s.finalized)
    (hq : q ∈ allNodes P.grid) :
    ∃ l, walkBack s.pred P.anchor (allNodes P.grid).card q = some l := by
  obtain ⟨r, hr⟩ := h.rankCert
  suffices haux : ∀ (fuel : ℕ) (seen : Finset (Node d)) (q : Node d),
      q ∈ s.finalized → q ∈ allNodes P.grid →
      (∀ x ∈ seen, r q < r x) → ↑seen ⊆ ↑(allNodes P.grid) →
      (allNodes P.grid).card ≤ fuel + seen.card →
      ∃ l, walkBack s.pred P.anchor fuel q = some l by
    exact haux (allNodes P.grid).card ∅ q hqfin hq (by simp) (by simp) (by simp)
  intro fuel
  induction fuel with
  | zero =>
      intro seen q hqfin hq hseen hsub hcard
      by_cases hqa : q = P.anchor
      · exact ⟨[q], by simp [walkBack, hqa]⟩
      · exfalso
        have hqs : q ∉ seen := fun hmem => absurd (hseen q hmem) (lt_irrefl _)
        have hsub' : ↑(insert q seen) ⊆ ↑(allNodes P.grid) := by
          intro y hy
          rcases Finset.mem_insert.mp hy with rfl | hys
          · exact hq
          · exact hsub hys
        have hle : (insert q seen).card ≤ (allNodes P.grid).card :=
          Finset.card_le_card (fun y hy => hsub' hy)
        rw [Finset.card_insert_of_not_mem hqs] at hle
        omega
  | succ fuel ih =>
      intro seen q hqfin hq hseen hsub hcard
      by_cases hqa : q = P.anchor
      · exact ⟨[q], by simp [walkBack, hqa]⟩
      · obtain ⟨o, hpo⟩ : ∃ o, s.pred q = some o := by
          rcases hx : s.pred q with _ | o
          · exact absurd hx (h.fPred q hqfin hqa)
          · exact ⟨o, rfl⟩
        have hnextfin : nodeAdd q o ∈ s.finalized := h.predTarget q o hpo
        have hnextb : nodeAdd q o ∈ allNodes P.grid := by
          rcases h.fNodes _ hnextfin with he | hb
          · rw [he]; exact ha
          · exact hb.1
        have hqs : q ∉ seen := fun hmem => absurd (hseen q hmem) (lt_irrefl _)
        obtain ⟨l, hl⟩ := ih (insert q seen) (nodeAdd q o) hnextfin hnextb
          (fun x hx => by
            rcases Finset.mem_insert.mp hx with hxq | hxs
            · rw [hxq]
              exact hr q o hpo
            · exact lt_trans (hr q o hpo) (hseen x hxs))
          (by
            intro y hy
            rcases Finset.mem_insert.mp hy with rfl | hys
            · exact hq
            · exact hsub hys)
          (by rw [Finset.card_insert_of_not_mem hqs]; omega)
        refine ⟨q :: l, ?_⟩
        simp [walkBack, hqa, hpo, hl]

theorem walkBack_spec (pred : Node d → Option (Node d)) (anchor : Node d) :
    ∀ (fuel : ℕ) (q : Node d) (l : List (Node d)),
      walkBack pred anchor fuel q = some l →
      l ≠ [] ∧ l.head? = some q ∧ l.getLast? = some anchor ∧
        l.Chain' (fun a b => ∃ o, pred a = some o ∧ b = nodeAdd a o) := by
  intro fuel
  induction fuel with
  | zero =>
      intro q l hl
      by_cases hqa : q = anchor
      · subst hqa
        rw [walkBack_anchor] at hl
        have hla : [q] = l := by injection hl
        rw [← hla]
        exact ⟨by simp, rfl, rfl, by simp⟩
      · simp [walkBack, hqa] at hl
  | succ fuel ih =>
      intro q l hl
      by_cases hqa : q = anchor
      · subst hqa
        rw [walkBack_anchor] at hl
        have hla : [q] = l := by injection hl
        rw [← hla]
        exact ⟨by simp, rfl, rfl, by simp⟩
      · simp only [walkBack, hqa, if_false] at hl
        rcases hpo : pred q with _ | o
        · rw [hpo] at hl
          have hl2 : (none : Option (List (Node d))) = some l := hl
          exact absurd hl2 (by simp)
        · rw [hpo] at hl
          have hl2 : Option.map (fun t => q :: t)
              (walkBack pred anchor fuel (nodeAdd q o)) = some l := hl
          rcases hrec : walkBack pred anchor fuel (nodeAdd q o) with _ | l2
          · rw [hrec] at hl2
            exact absurd hl2 (by simp)
          · rw [hrec] at hl2
            simp only [Option.map_some'] at hl2
            have hll : q :: l2 = l := by injection hl2
            obtain ⟨hne, hhead, hlast, hchain⟩ := ih (nodeAdd q o) l2 hrec
            rw [← hll]
            rcases l2 with _ | ⟨b, t⟩
            · exact absurd rfl hne
            · have hb : b = nodeAdd q o := by
                have hsb : some b = some (nodeAdd q o) := hhead ▸ rfl
                injection hsb
              refine ⟨by simp, rfl, ?_, ?_⟩
              · rw [List.getLast?_cons_cons]
                exact hlast
              · exact List.Chain'.cons ⟨o, hpo, hb⟩ hchain

theorem walkBack_finalized {P : SearchParams d α} {s : BuildState d α}
    (h : Inv P s) :
    ∀ (fuel : ℕ) (q : Node d) (l : List (Node d)),
      q ∈ s.finalized → walkBack s.pred P.anchor fuel q = some l →
      ∀ x ∈ l, x ∈ s.finalized := by
  intro fuel
  induction fuel with
  | zero =>
      intro q l hqfin hl
      by_cases hqa : q = P.anchor
      · subst hqa
        rw [walkBack_anchor] at hl
        have hla : [P.anchor] = l := by injection hl
        rw [← hla]
        intro x hx
        rcases List.mem_singleton.mp hx with rfl
        exact hqfin
      · simp [walkBack, hqa] at hl
  | succ fuel ih =>
      intro q l hqfin hl
      by_cases hqa : q = P.anchor
      · subst hqa
        rw [walkBack_anchor] at hl
        have hla : [P.anchor] = l := by injection hl
        rw [← hla]
        intro x hx
        rcases List.mem_singleton.mp hx with rfl
        exact hqfin
      · simp only [walkBack, hqa, if_false] at hl
        rcases hpo : s.pred q with _ | o
        · rw [hpo] at hl
          have hl2 : (none : Option (List (Node d))) = some l := hl
          exact absurd hl2 (by simp)
        · rw [hpo] at hl
          have hl2 : Option.map (fun t => q :: t)
              (walkBack s.pred P.anchor fuel (nodeAdd q o)) = some l := hl
          rcases hrec : walkBack s.pred P.anchor fuel (nodeAdd q o) with _ | l2
          · rw [hrec] at hl2
            exact absurd hl2 (by simp)
          · rw [hrec] at hl2
            simp only [Option.map_some'] at hl2
            have hll : q :: l2 = l := by injection hl2
            rw [← hll]
            intro x hx
            rcases List.mem_cons.mp hx with rfl | hx2
            · exact hqfin
            · exact ih (nodeAdd q o) l2 (h.predTarget q o hpo) hrec x hx2

end MinPath

namespace MinPath

variable {d : ℕ} {α : Type} [LinearOrderedAddCommMonoid α]

omit [LinearOrderedAddCommMonoid α] in
theorem evaluateAtIndex_ok {g : Grid d} {df : BuildState d α} {anchor q : Node d}
    {p : List (Node d)} (h : EvaluateAtIndex g df anchor q = .ok p) :
    q ∈ allNodes g ∧ q ∈ df.finalized ∧
      ∃ l, walkBack df.pred anchor (allNodes g).card q = some l ∧ p = l.reverse := by
  unfold EvaluateAtIndex at h
  by_cases h1 : q ∈ allNodes g
  · rw [if_pos h1] at h
    by_cases h2 : q ∈ df.finalized
    · rw [if_pos h2] at h
      rcases hrec : walkBack df.pred anchor (allNodes g).card q with _ | l
      · rw [hrec] at h
        exact absurd h (fun hc => Except.noConfusion hc)
      · rw [hrec] at h
        have h3 : Except.ok (ε := EvalError) l.reverse = Except.ok p := h
        have h4 : l.reverse = p := by injection h3
        exact ⟨h1, h2, l, rfl, h4.symm⟩
    · rw [if_neg h2] at h
      exact absurd h (fun hc => Except.noConfusion hc)
  · rw [if_neg h1] at h
    exact absurd h (fun hc => Except.noConfusion hc)

/-- The claim C1: on any configuration with nonnegative edge weights, an
in-bounds anchor and an in-bounds query node `q`: `q` is reachable from the
anchor under the mask and connectivity constraints iff the direction-field
build finalizes `q`; when reachable, `q` has a predecessor direction (unless
it is the anchor itself) and `EvaluateAtIndex` succeeds; when unreachable,
`q` stays unfinalized with no predecessor and `EvaluateAtIndex` fails with
the unreachable-query condition. -/
theorem reachability_closure (P : SearchParams d α) (hw : ∀ o v, 0 ≤ P.ew o v)
    (ha : P.anchor ∈ allNodes P.grid) (q : Node d) (hq : q ∈ allNodes P.grid) :
    (Reachable P q ↔ q ∈ (GeneratePathDirectionImage P).finalized) ∧
    (Reachable P q →
      (q ≠ P.anchor → (GeneratePathDirectionImage P).pred q ≠ none) ∧
      ∃ p, EvaluateAtIndex P.grid (GeneratePathDirectionImage P) P.anchor q =
        .ok p) ∧
    (¬ Reachable P q →
      q ∉ (GeneratePathDirectionImage P).finalized ∧
      (GeneratePathDirectionImage P).pred q = none ∧
      EvaluateAtIndex P.grid (GeneratePathDirectionImage P) P.anchor q =
        .error .unreachableQuery) := by
  obtain ⟨hinv, hqueue⟩ := generate_inv hw
  have hiff : Reachable P q ↔ q ∈ (GeneratePathDirectionImage P).finalized :=
    ⟨reachable_finalized hinv hqueue, fun hf => hinv.fReach q hf⟩
  refine ⟨hiff, ?_, ?_⟩
  · intro hr
    have hf := hiff.mp hr
    refine ⟨fun hqa => hinv.fPred q hf hqa, ?_⟩
    obtain ⟨l, hl⟩ := walkBack_total hinv ha hf hq
    refine ⟨l.reverse, ?_⟩
    unfold EvaluateAtIndex
    rw [if_pos hq, if_pos hf, hl]
  · intro hnr
    have hnf : q ∉ (GeneratePathDirectionImage P).finalized :=
      fun hf => hnr (hiff.mpr hf)
    have hnp : (GeneratePathDirectionImage P).pred q = none := by
      rcases hx : (GeneratePathDirectionImage P).pred q with _ | o
      · rfl
      · exact absurd (hinv.predReach q o hx) hnr
    refine ⟨hnf, hnp, ?_⟩
    unfold EvaluateAtIndex
    rw [if_pos hq, if_neg hnf]

theorem reachability_closure_witness :
    (Reachable P1ex (nd 2) ↔ nd 2 ∈ (GeneratePathDirectionImage P1ex).finalized) ∧
    (Reachable P1ex (nd 2) →
      (nd 2 ≠ P1ex.anchor → (GeneratePathDirectionImage P1ex).pred (nd 2) ≠ none) ∧
      ∃ p, EvaluateAtIndex P1ex.grid (GeneratePathDirectionImage P1ex)
        P1ex.anchor (nd 2) = .ok p) ∧
    (¬ Reachable P1ex (nd 2) →
      nd 2 ∉ (GeneratePathDirectionImage P1ex).finalized ∧
      (GeneratePathDirectionImage P1ex).pred (nd 2) = none ∧
      EvaluateAtIndex P1ex.grid (GeneratePathDirectionImage P1ex)
        P1ex.anchor (nd 2) = .error .unreachableQuery) :=
  reachability_closure P1ex (fun _ _ => Int.one_nonneg) (by decide) (nd 2) (by decide)

/-- The claim C7: on any configuration with nonnegative edge weights and an
in-bounds anchor, evaluating at the anchor itself succeeds with the
single-node path consisting of the anchor, and the anchor's cumulative cost
is zero; the anchor-equals-query case is not an error. -/
theorem anchor_identity (P : SearchParams d α) (hw : ∀ o v, 0 ≤ P.ew o v)
    (ha : P.anchor ∈ allNodes P.grid) :
    EvaluateAtIndex P.grid (GeneratePathDirectionImage P) P.anchor P.anchor =
      .ok [P.anchor] ∧
    (GeneratePathDirectionImage P).dist P.anchor = some 0 := by
  obtain ⟨hinv, hqueue⟩ := generate_inv hw
  have haf := anchor_finalized hinv hqueue
  constructor
  · unfold EvaluateAtIndex
    rw [if_pos ha, if_pos haf, walkBack_anchor]
    rfl
  · exact hinv.anchorDist

theorem anchor_identity_witness :
    EvaluateAtIndex P1ex.grid (GeneratePathDirectionImage P1ex) P1ex.anchor
      P1ex.anchor = .ok [P1ex.anchor] ∧
    (GeneratePathDirectionImage P1ex).dist P1ex.anchor = some 0 :=
  anchor_identity P1ex (fun _ _ => Int.one_nonneg) (by decide)

end MinPath

namespace MinPath

variable {d : ℕ} {α : Type} [LinearOrderedAddCommMonoid α]

/-- The claim C2: whenever `EvaluateAtIndex` succeeds on a direction field
built with nonnegative edge weights, the returned path starts at the anchor,
ends at the query node, and every consecutive pair of nodes differs by an
offset that is legal under the current connectivity policy. -/
theorem path_validity (P : SearchParams d α) (hw : ∀ o v, 0 ≤ P.ew o v)
    (q : Node d) (p : List (Node d))
    (h : EvaluateAtIndex P.grid (GeneratePathDirectionImage P) P.anchor q =
      .ok p) :
    p.head? = some P.anchor ∧ p.getLast? = some q ∧
      p.Chain' (fun a b => ∃ o, IsLegalOffset P.faceOnly o ∧ b = nodeAdd a o) := by
  obtain ⟨hinv, _⟩ := generate_inv hw
  obtain ⟨hqb, hqf, l, hl, hp⟩ := evaluateAtIndex_ok h
  obtain ⟨hne, hhead, hlast, hchain⟩ := walkBack_spec _ _ _ _ _ hl
  subst hp
  refine ⟨?_, ?_, ?_⟩
  · rw [List.head?_reverse]
    exact hlast
  · rw [List.getLast?_reverse]
    exact hhead
  · rw [List.chain'_reverse]
    refine hchain.imp ?_
    intro a b hab
    obtain ⟨o, hpo, hba⟩ := hab
    refine ⟨nodeNeg o, (hinv.predLegal a o hpo).neg, ?_⟩
    rw [hba, nodeAdd_nodeNeg]

theorem path_validity_witness :
    ([nd 0, nd 1, nd 2].head? = some P1ex.anchor) ∧
    ([nd 0, nd 1, nd 2].getLast? = some (nd 2)) ∧
    List.Chain' (fun a b => ∃ o, IsLegalOffset P1ex.faceOnly o ∧ b = nodeAdd a o)
      [nd 0, nd 1, nd 2] :=
  path_validity P1ex (fun _ _ => Int.one_nonneg) (nd 2) [nd 0, nd 1, nd 2]
    (by decide)

theorem walkBack_some_iff_hits (pred : Node d → Option (Node d))
    (anchor : Node d) :
    ∀ (fuel : ℕ) (q : Node d),
      (∃ l, walkBack pred anchor fuel q = some l) ↔
        walkHitsAnchor pred anchor fuel q = true := by
  intro fuel
  induction fuel with
  | zero =>
      intro q
      by_cases hqa : q = anchor <;> simp [walkBack, walkHitsAnchor, hqa]
  | succ fuel ih =>
      intro q
      by_cases hqa : q = anchor
      · simp [walkBack, walkHitsAnchor, hqa]
      · constructor
        · rintro ⟨l, hl⟩
          simp only [walkBack, hqa, if_false] at hl
          rcases hpo : pred q with _ | o
          · rw [hpo] at hl
            have hl2 : (none : Option (List (Node d))) = some l := hl
            exact absurd hl2 (by simp)
          · rw [hpo] at hl
            have hl2 : Option.map (fun t => q :: t)
                (walkBack pred anchor fuel (nodeAdd q o)) = some l := hl
            rcases hrec : walkBack pred anchor fuel (nodeAdd q o) with _ | l2
            · rw [hrec] at hl2
              exact absurd hl2 (by simp)
            · have hhit : walkHitsAnchor pred anchor fuel (nodeAdd q o) = true :=
                (ih _).mp ⟨l2, hrec⟩
              simp [walkHitsAnchor, hqa, hpo, hhit]
        · intro hhit
          rcases hpo : pred q with _ | o
          · simp only [walkHitsAnchor, hqa, hpo] at hhit
            exact absurd hhit (by simp)
          · simp only [walkHitsAnchor, hqa, hpo] at hhit
            have hhit2 : walkHitsAnchor pred anchor fuel (nodeAdd q o) = true := by
              simpa [hqa] using hhit
            obtain ⟨l2, hl2⟩ := (ih _).mpr hhit2
            refine ⟨q :: l2, ?_⟩
            simp [walkBack, hqa, hpo, hl2]

omit [LinearOrderedAddCommMonoid α] in
/-- The claim C3: the predecessor-offset walk of `EvaluateAtIndex` is bounded
by the total node count of the grid; the query fails with the
inconsistent-direction-field condition exactly when the query is in bounds
and finalized but the walk does not reach the anchor within that bound, so a
corrupted field can neither loop nor be silently truncated. -/
theorem walk_cycle_guard (g : Grid d) (df : BuildState d α) (anchor q : Node d) :
    EvaluateAtIndex g df anchor q = .error .inconsistentDirectionField ↔
      (q ∈ allNodes g ∧ q ∈ df.finalized ∧
        walkHitsAnchor df.pred anchor (allNodes g).card q = false) := by
  unfold EvaluateAtIndex
  by_cases h1 : q ∈ allNodes g
  · rw [if_pos h1]
    by_cases h2 : q ∈ df.finalized
    · rw [if_pos h2]
      rcases hrec : walkBack df.pred anchor (allNodes g).card q with _ | l
      · have hmiss : walkHitsAnchor df.pred anchor (allNodes g).card q = false := by
          rcases hx : walkHitsAnchor df.pred anchor (allNodes g).card q with _ | _
          · rfl
          · obtain ⟨l2, hl2⟩ := (walkBack_some_iff_hits df.pred anchor _ q).mpr hx
            rw [hl2] at hrec
            exact absurd hrec (by simp)
        simp [h1, h2, hmiss]
      · have hhit : walkHitsAnchor df.pred anchor (allNodes g).card q = true :=
          (walkBack_some_iff_hits df.pred anchor _ q).mp ⟨l, hrec⟩
        constructor
        · intro hc
          exact absurd hc (fun hc2 => Except.noConfusion hc2)
        · rintro ⟨-, -, hmiss⟩
          rw [hhit] at hmiss
          exact absurd hmiss (by simp)
    · rw [if_neg h2]
      constructor
      · intro hc
        have : EvalError.unreachableQuery = EvalError.inconsistentDirectionField := by
          injection hc
        exact absurd this (by simp)
      · rintro ⟨-, hf, -⟩
        exact absurd hf h2
  · rw [if_neg h1]
    constructor
    · intro hc
      have : EvalError.outOfBounds = EvalError.inconsistentDirectionField := by
        injection hc
      exact absurd this (by simp)
    · rintro ⟨hb, -, -⟩
      exact absurd hb h1

end MinPath

namespace MinPath

variable {d : ℕ} {α : Type} [LinearOrderedAddCommMonoid α]

/-- The claim C6 as stated is false: on a configuration whose anchor itself
fails the mask test, the anchor is nevertheless finalized by the build and
appears in the path returned for it (the search seeds the anchor
unconditionally; the mask test applies only to relaxed neighbors). -/
theorem mask_exclusion_counterexample :
    traversable PMaskEx.mask PMaskEx.insideLabel PMaskEx.anchor = false ∧
    PMaskEx.anchor ∈ (GeneratePathDirectionImage PMaskEx).finalized ∧
    EvaluateAtIndex PMaskEx.grid (GeneratePathDirectionImage PMaskEx)
      PMaskEx.anchor PMaskEx.anchor = .ok [PMaskEx.anchor] ∧
    PMaskEx.anchor ∈ [PMaskEx.anchor] := by
  decide

/-- The claim C6, amended: for every configuration with nonnegative edge
weights, every node other than the anchor that fails the mask test is never
finalized by the build and never appears in any returned path; and when no
mask is set, every node is traversable.  (The anchor itself is exempt: it is
seeded unconditionally, see `mask_exclusion_counterexample`.) -/
theorem mask_exclusion_amended (P : SearchParams d α)
    (hw : ∀ o v, 0 ≤ P.ew o v) :
    (∀ n, n ≠ P.anchor → traversable P.mask P.insideLabel n = false →
      n ∉ (GeneratePathDirectionImage P).finalized ∧
      ∀ q p, EvaluateAtIndex P.grid (GeneratePathDirectionImage P) P.anchor q =
        .ok p → n ∉ p) ∧
    (P.mask = none → ∀ n, traversable P.mask P.insideLabel n = true) := by
  obtain ⟨hinv, _⟩ := generate_inv hw
  constructor
  · intro n hna hmask
    have hnf : n ∉ (GeneratePathDirectionImage P).finalized := by
      intro hf
      rcases hinv.fNodes n hf with he | ⟨_, ht⟩
      · exact hna he
      · rw [hmask] at ht
        exact Bool.false_ne_true ht
    refine ⟨hnf, ?_⟩
    intro q p hok hmem
    obtain ⟨hqb, hqf, l, hl, hp⟩ := evaluateAtIndex_ok hok
    have hmem2 : n ∈ l := by
      rw [hp] at hmem
      exact List.mem_reverse.mp hmem
    exact hnf (walkBack_finalized hinv _ q l hqf hl n hmem2)
  · intro hm n
    simp [traversable, hm]

theorem mask_exclusion_amended_witness :
    nd 1 ∉ (GeneratePathDirectionImage PMask2).finalized :=
  ((mask_exclusion_amended PMask2 (fun _ _ => Int.one_nonneg)).1 (nd 1)
    (by decide) (by decide)).1

/-- The claim C5: the edge weight of one relaxed edge equals the neighbor's
cost-field value when use-spacing is disabled, and equals that value
multiplied by the Euclidean norm of the componentwise product of the offset
and the per-axis spacing when enabled; with all-unit spacing the two
settings agree on face offsets. -/
theorem edge_weight_formula (useSpacing : Bool) (cost : Node d → ℝ)
    (spacing : Fin d → ℚ) (o v : Node d) :
    (useSpacing = false → specEdgeWeight useSpacing cost spacing o v = cost v) ∧
    (useSpacing = true → specEdgeWeight useSpacing cost spacing o v =
      cost v * Real.sqrt ((offsetSpacingNormSq o spacing : ℚ) : ℝ)) ∧
    ((∀ i, spacing i = 1) → IsLegalOffset true o →
      specEdgeWeight true cost spacing o v =
        specEdgeWeight false cost spacing o v) := by
  refine ⟨?_, ?_, ?_⟩
  · intro h
    simp [specEdgeWeight, h]
  · intro h
    simp [specEdgeWeight, h]
  · intro hsp ho
    have h1 : ∀ i, ((o i : ℚ) * spacing i) ^ 2 = ((o i).natAbs : ℚ) := by
      intro i
      rw [hsp i, mul_one]
      rcases ho.1 i with h | h | h <;> rw [h] <;> norm_num
    have hnorm : offsetSpacingNormSq o spacing = 1 := by
      unfold offsetSpacingNormSq
      calc ∑ i, ((o i : ℚ) * spacing i) ^ 2
          = ∑ i, ((o i).natAbs : ℚ) := Finset.sum_congr rfl (fun i _ => h1 i)
        _ = ((∑ i, (o i).natAbs : ℕ) : ℚ) := by push_cast; ring
        _ = 1 := by rw [ho.2.2 rfl]; norm_num
    simp [specEdgeWeight, hnorm]

theorem edge_weight_formula_witness :
    specEdgeWeight true costEx spEx oEx vEx =
      specEdgeWeight false costEx spEx oEx vEx :=
  (edge_weight_formula true costEx spEx oEx vEx).2.2
    (fun i => by simp [spEx]) (by decide)

end MinPath

namespace MinPath

variable {d : ℕ} {α : Type} [LinearOrderedAddCommMonoid α]

/-- The claim C4: setting a new anchor seed (different from the current one)
stores the new seed, regenerates the direction field within the call itself
when an input grid is installed (so the stored field corresponds to the new
anchor), leaves the old field untouched (stale) when no grid is installed,
and marks the object modified. -/
theorem setAnchorSeed_updates (e : MinimalPathImageFunction d α)
    (index : Node d) (hne : index ≠ e.anchorSeed) :
    (SetAnchorSeed e index).anchorSeed = index ∧
    (∀ g, e.inputImage = some g →
      (SetAnchorSeed e index).pathDirectionImage =
        GeneratePathDirectionImage
          ({ e with anchorSeed := index }.searchParams g)) ∧
    (e.inputImage = none →
      (SetAnchorSeed e index).pathDirectionImage = e.pathDirectionImage) ∧
    (SetAnchorSeed e index).modifiedCount = e.modifiedCount + 1 := by
  have hne2 : e.anchorSeed ≠ index := Ne.symm hne
  unfold SetAnchorSeed
  rw [if_pos hne2]
  rcases hin : e.inputImage with _ | g
  · refine ⟨rfl, ?_, fun _ => rfl, rfl⟩
    intro g hg
    exact absurd hg (fun hc => Option.noConfusion hc)
  · refine ⟨rfl, ?_, ?_, rfl⟩
    · intro g2 hg2
      have hgg : g = g2 := by injection hg2
      rw [← hgg]
    · intro hc
      exact absurd hc (fun hc2 => Option.noConfusion hc2)

theorem setAnchorSeed_updates_witness :
    (SetAnchorSeed E0ex (nd 1)).anchorSeed = nd 1 :=
  (setAnchorSeed_updates E0ex (nd 1) (by decide)).1

/-- The claim C9: setting the anchor seed to its current value is a complete
no-op: the engine state is unchanged, no rebuild is triggered, and the
object is not marked modified. -/
theorem setAnchorSeed_same_noop (e : MinimalPathImageFunction d α) :
    SetAnchorSeed e e.anchorSeed = e := by
  unfold SetAnchorSeed
  rw [if_neg (fun hc => hc rfl)]

omit [LinearOrderedAddCommMonoid α] in
/-- The claim C8: the physical-point wrapper and the continuous-index
wrapper return exactly the node query applied to the coordinate snapped to
the nearest grid node, rounding to the nearest integer per axis (each
rounded coordinate is within half a unit of the exact one). -/
theorem evaluate_wrappers (e : MinimalPathImageFunction d α) (g : Grid d)
    (hg : e.inputImage = some g) (p c : Fin d → ℚ) :
    Evaluate e p = evaluateAtIndexOf e (ConvertPointToNearestIndex g p) ∧
    EvaluateAtContinuousIndex e c =
      evaluateAtIndexOf e (ConvertContinuousIndexToNearestIndex c) ∧
    (∀ i, |c i - ((ConvertContinuousIndexToNearestIndex c) i : ℚ)| ≤ 1 / 2) ∧
    (∀ i, |(p i - g.origin i) / g.spacing i -
      ((ConvertPointToNearestIndex g p) i : ℚ)| ≤ 1 / 2) := by
  refine ⟨?_, rfl, fun i => abs_sub_round (c i), fun i => abs_sub_round _⟩
  unfold Evaluate
  rw [hg]

theorem evaluate_wrappers_witness :
    Evaluate E0ex (fun _ => (3 : ℚ) / 2) =
      evaluateAtIndexOf E0ex
        (ConvertPointToNearestIndex g1ex (fun _ => (3 : ℚ) / 2)) :=
  (evaluate_wrappers E0ex g1ex rfl (fun _ => (3 : ℚ) / 2) (fun _ => 0)).1

end MinPath

namespace FEM

theorem getD_set_ne (a dflt : ℚ) :
    ∀ (l : List ℚ) (i j : ℕ), i ≠ j →
      (l.set i a).getD j dflt = l.getD j dflt := by
  intro l
  induction l with
  | nil => intro i j _; simp
  | cons x xs ih =>
      intro i j h
      match i, j with
      | 0, 0 => exact absurd rfl h
      | 0, j + 1 => simp [List.set]
      | i + 1, 0 => simp [List.set]
      | i + 1, j + 1 =>
          simp only [List.set, List.getD_cons_succ]
          exact ih i j (fun hc => h (by rw [hc]))

theorem getD_set_self (a dflt : ℚ) :
    ∀ (l : List ℚ) (i : ℕ), i < l.length →
      (l.set i a).getD i dflt = a := by
  intro l
  induction l with
  | nil => intro i h; simp at h
  | cons x xs ih =>
      intro i h
      match i with
      | 0 => simp [List.set]
      | i + 1 =>
          simp only [List.set, List.getD_cons_succ]
          exact ih i (by simpa using h)

theorem scale_fold (spacing : ℕ → ℚ) (fwt : ℚ) (L : LoadLandmark) :
    ∀ k : ℕ, k ≤ L.m_target.length → k ≤ L.m_source.length →
      ((List.range k).foldl (scaleStep spacing fwt) L).eta = L.eta * fwt ^ k ∧
      ((List.range k).foldl (scaleStep spacing fwt) L).m_target.length =
        L.m_target.length ∧
      ((List.range k).foldl (scaleStep spacing fwt) L).m_source.length =
        L.m_source.length ∧
      (∀ i, i < k →
        ((List.range k).foldl (scaleStep spacing fwt) L).m_target.getD i 0 =
          L.m_target.getD i 0 / spacing i ∧
        ((List.range k).foldl (scaleStep spacing fwt) L).m_source.getD i 0 =
          L.m_source.getD i 0 / spacing i) ∧
      (∀ i, k ≤ i →
        ((List.range k).foldl (scaleStep spacing fwt) L).m_target.getD i 0 =
          L.m_target.getD i 0 ∧
        ((List.range k).foldl (scaleStep spacing fwt) L).m_source.getD i 0 =
          L.m_source.getD i 0) := by
  intro k
  induction k with
  | zero =>
      intro _ _
      simp
  | succ k ih =>
      intro hkt hks
      obtain ⟨he, hlt, hls, hlow, hhigh⟩ := ih (Nat.le_of_succ_le hkt)
        (Nat.le_of_succ_le hks)
      rw [List.range_succ, List.foldl_append]
      simp only [List.foldl_cons, List.foldl_nil]
      refine ⟨?_, ?_, ?_, ?_, ?_⟩
      · simp only [scaleStep, he]
        rw [pow_succ, mul_assoc]
      · simp only [scaleStep, List.length_set]
        exact hlt
      · simp only [scaleStep, List.length_set]
        exact hls
      · intro i hik
        rcases Nat.lt_succ_iff_lt_or_eq.mp hik with hik2 | hik2
        · constructor
          · simp only [scaleStep]
            rw [getD_set_ne _ _ _ _ _ (fun hc : k = i => by omega)]
            exact (hlow i hik2).1
          · simp only [scaleStep]
            rw [getD_set_ne _ _ _ _ _ (fun hc : k = i => by omega)]
            exact (hlow i hik2).2
        · subst hik2
          constructor
          · simp only [scaleStep]
            rw [getD_set_self _ _ _ _ (by rw [hlt]; omega)]
            rw [(hhigh i le_rfl).1]
          · simp only [scaleStep]
            rw [getD_set_self _ _ _ _ (by rw [hls]; omega)]
            rw [(hhigh i le_rfl).2]
      · intro i hik
        have hki : k ≠ i := fun hc => by omega
        constructor
        · simp only [scaleStep]
          rw [getD_set_ne _ _ _ _ _ hki]
          exact (hhigh i (by omega)).1
        · simp only [scaleStep]
          rw [getD_set_ne _ _ _ _ _ hki]
          exact (hhigh i (by omega)).2

/-- The claim C10: `ScalePointAndForce` divides each component of the target
and source vectors by the corresponding spacing entry exactly once, but
multiplies eta by `fwt` once per target component, so afterwards eta equals
its old value times `fwt` raised to the number of target components, not
times `fwt` once. -/
theorem scalePointAndForce_eta (L : LoadLandmark) (spacing : ℕ → ℚ)
    (fwt : ℚ) (hlen : L.m_target.length ≤ L.m_source.length) :
    (ScalePointAndForce L spacing fwt).eta =
      L.eta * fwt ^ L.m_target.length ∧
    (∀ i, i < L.m_target.length →
      (ScalePointAndForce L spacing fwt).m_target.getD i 0 =
        L.m_target.getD i 0 / spacing i ∧
      (ScalePointAndForce L spacing fwt).m_source.getD i 0 =
        L.m_source.getD i 0 / spacing i) := by
  obtain ⟨he, _, _, hlow, _⟩ :=
    scale_fold spacing fwt L L.m_target.length le_rfl hlen
  exact ⟨he, hlow⟩

theorem scalePointAndForce_eta_witness :
    (ScalePointAndForce L0ex (fun _ => 2) 5).eta =
      L0ex.eta * 5 ^ L0ex.m_target.length :=
  (scalePointAndForce_eta L0ex (fun _ => 2) 5 (by decide)).1

end FEM
